import Mathlib

/-! Secret reconstruction by integer Lagrange interpolation (`main.js`).

A shallow embedding of the three functions of `main.js` and of the part of
`main` that follows the JSON parse:

* `convertToBase10`  (main.js 4-16)
* `lagrangeBasis`    (main.js 19-31)
* `interpolate`      (main.js 34-61)
* `main`             (main.js 72-86)

JavaScript `BigInt` values are `Int`.  `BigInt` division `/` rounds toward
zero (`Int.tdiv`) and both `/` and `%` throw a `RangeError` on a zero divisor.
A thrown exception is the `error` side of `Except JsError`.
-/

deriving instance DecidableEq for Except

namespace Shamir

/-! ## Data model -/

/-- The exceptions the embedded code can raise. -/
inductive JsError where
  /-- `throw new Error("Invalid character in value: c")` (main.js 11). -/
  | invalidCharacter (c : Char)
  /-- `RangeError: Division by zero`, raised by `%` on `BigInt` (main.js 51). -/
  | divisionByZero
  /-- `TypeError`: property `x` read from `undefined` (main.js 22). -/
  | typeError
  deriving DecidableEq, Repr

/-- An entry `{ x, y }` of the `points` array (main.js 78). -/
structure Point where
  x : Int
  y : Int
  deriving DecidableEq, Repr

/-- The object `{ numerator, denominator }` returned by `lagrangeBasis`. -/
structure BasisFraction where
  numerator : Int
  denominator : Int
  deriving DecidableEq, Repr

/-- One non-`keys` entry of the parsed input, as the loop of `main` sees it:
`x` is `BigInt(key)`, `base` is `parseInt(base, 10)` and `value` the digit
string. -/
structure ShareRecord where
  x : Int
  base : Int
  value : String
  deriving DecidableEq, Repr

/-! ## `convertToBase10` -/

/-- The alphabet `const digits = '0123456789abcdef'` (main.js 5). -/
def digits : String := "0123456789abcdef"

/-- The expression `digits.indexOf(value[i].toLowerCase())` (main.js 9);
`none` is the JavaScript result `-1`.  The only characters whose lower case
lies in the alphabet are `0-9`, `a-f` and `A-F`, on which `Char.toLower`
agrees with `toLowerCase`. -/
def digitOf (c : Char) : Option Nat :=
  digits.toList.indexOf? c.toLower

/-- One pass of the loop body of `convertToBase10` (main.js 9-13). -/
def convertStep (bigBase : Int) (result : Int) (c : Char) : Except JsError Int :=
  match digitOf c with
  | none => .error (.invalidCharacter c)
  | some digit => .ok (result * bigBase + (digit : Int))

/-- The function `convertToBase10(value, base)` (main.js 4-16): a left to right
accumulation `result = result * bigBase + digit`, starting from `0n`. -/
def convertToBase10 (value : String) (base : Int) : Except JsError Int :=
  value.toList.foldlM (convertStep base) 0

/-! ## `lagrangeBasis` -/

/-- One pass of the loop body of `lagrangeBasis` (main.js 25-28) at index `i`
with `points[i] = pi`. -/
def basisStep (xj x : Int) (j : Nat) (acc : BasisFraction) (ip : Nat × Point) :
    BasisFraction :=
  if ip.1 = j then acc
  else ⟨acc.numerator * (x - ip.2.x), acc.denominator * (xj - ip.2.x)⟩

/-- The function `lagrangeBasis(points, j, x)` (main.js 19-31).  The loop runs
over the pairs `(i, points[i])` in index order. -/
def lagrangeBasis (points : List Point) (j : Nat) (x : Int) :
    Except JsError BasisFraction :=
  match points[j]? with
  | none => .error .typeError
  | some pj => .ok (points.enum.foldl (basisStep pj.x x j) ⟨1, 1⟩)

/-! ## `interpolate` -/

/-- One pass of the loop body of `interpolate` (main.js 45-57) at index `j`
with `points[j] = pj`.  The `console.warn` of line 55 changes no value and is
not part of the result. -/
def interpolateStep (points : List Point) (x : Int) (p_x : Int) (jp : Nat × Point) :
    Except JsError Int :=
  match lagrangeBasis points jp.1 x with
  | .error e => .error e
  | .ok b =>
    let termNumerator := jp.2.y * b.numerator
    if b.denominator = 0 then .error .divisionByZero
    else .ok (p_x + termNumerator.tdiv b.denominator)

/-- The function `interpolate(points, x)` (main.js 34-61). -/
def interpolate (points : List Point) (x : Int) : Except JsError Int :=
  points.enum.foldlM (interpolateStep points x) 0

/-! ## `main` -/

/-- The array method `points.slice(0, k)` for an integer `k` (main.js 83): a
negative `k` counts from the end of the array. -/
def slice0 (points : List Point) (k : Int) : List Point :=
  if k < 0 then points.take (points.length - k.natAbs) else points.take k.toNat

/-- The body of the decoding loop of `main` for one record (main.js 75-78). -/
def decodeShare (s : ShareRecord) : Except JsError Point :=
  match convertToBase10 s.value s.base with
  | .error e => .error e
  | .ok y => .ok ⟨s.x, y⟩

/-- The computation of `main` (main.js 72-86) from the parsed records, in the
order in which `for (const key in data)` visits them, and the threshold `k`;
the result is the secret that is printed, or the exception that is caught. -/
def main (shares : List ShareRecord) (k : Int) : Except JsError Int :=
  match shares.mapM decodeShare with
  | .error e => .error e
  | .ok points => interpolate (slice0 points k) 0

/-! ## Closed forms used in the statements -/

/-- The product of `x - points[i].x` over the entries of `points` other than
the one at index `j`, in list form. -/
def basisNum (points : List Point) (j : Nat) (x : Int) : Int :=
  ((points.eraseIdx j).map fun p => x - p.x).prod

/-- The term that `interpolate` adds for the entry at index `j`. -/
def basisTerm (points : List Point) (x : Int) (jp : Nat × Point) : Int :=
  (jp.2.y * basisNum points jp.1 x).tdiv (basisNum points jp.1 jp.2.x)

/-! ## The loop of `lagrangeBasis` -/

theorem foldl_basisStep_after (xj x : Int) (j : Nat) :
    ∀ (l : List Point) (s : Nat) (acc : BasisFraction), j < s →
      (l.enumFrom s).foldl (basisStep xj x j) acc =
        ⟨acc.numerator * (l.map fun p => x - p.x).prod,
          acc.denominator * (l.map fun p => xj - p.x).prod⟩ := by
  intro l
  induction l with
  | nil => intro s acc _; simp
  | cons p t ih =>
    intro s acc hs
    have hne : s ≠ j := by omega
    simp only [List.enumFrom_cons, List.foldl_cons, List.map_cons, List.prod_cons]
    rw [ih (s + 1) _ (by omega)]
    simp [basisStep, hne, mul_assoc]

theorem foldl_basisStep (xj x : Int) (j : Nat) :
    ∀ (l : List Point) (s : Nat) (acc : BasisFraction), s ≤ j →
      (l.enumFrom s).foldl (basisStep xj x j) acc =
        ⟨acc.numerator * ((l.eraseIdx (j - s)).map fun p => x - p.x).prod,
          acc.denominator * ((l.eraseIdx (j - s)).map fun p => xj - p.x).prod⟩ := by
  intro l
  induction l with
  | nil => intro s acc _; simp
  | cons p t ih =>
    intro s acc hs
    simp only [List.enumFrom_cons, List.foldl_cons]
    rcases Nat.eq_or_lt_of_le hs with h | h
    · subst h
      rw [foldl_basisStep_after xj x s t (s + 1) _ (by omega)]
      simp [basisStep]
    · rw [ih (s + 1) _ (by omega)]
      have e : j - s = (j - (s + 1)) + 1 := by omega
      have hne : s ≠ j := by omega
      rw [e]
      simp [basisStep, hne, mul_assoc]

/-- The value of `lagrangeBasis` at a valid index, in list form. -/
theorem lagrangeBasis_eq (points : List Point) (j : Nat) (pj : Point)
    (h : points[j]? = some pj) (x : Int) :
    lagrangeBasis points j x = .ok ⟨basisNum points j x, basisNum points j pj.x⟩ := by
  simp only [lagrangeBasis, h, List.enum, basisNum]
  rw [foldl_basisStep pj.x x j points 0 _ (Nat.zero_le j)]
  simp

/-! ## Products over the other indices -/

theorem prod_ite_eq_eraseIdx (f : Point → Int) :
    ∀ (l : List Point) (j : Nat),
      (∏ i : Fin l.length, if i.val = j then 1 else f (l.get i)) =
        ((l.eraseIdx j).map f).prod := by
  intro l
  induction l with
  | nil => intro j; simp
  | cons p t ih =>
    intro j
    refine (Fin.prod_univ_succ (n := t.length) _).trans ?_
    cases j with
    | zero =>
      simp [Fin.prod_univ_get']
    | succ j =>
      have h := ih j
      simp only [List.get_eq_getElem] at h
      simp [h]

theorem prod_erase_eq_eraseIdx (f : Point → Int) (l : List Point) (j : Fin l.length) :
    (∏ i in Finset.univ.erase j, f (l.get i)) = ((l.eraseIdx j.val).map f).prod := by
  rw [← prod_ite_eq_eraseIdx f l j.val]
  rw [← Finset.prod_erase Finset.univ (a := j)
    (f := fun i : Fin l.length => if i.val = j.val then 1 else f (l.get i)) (by simp)]
  refine Finset.prod_congr rfl fun i hi => ?_
  have : i.val ≠ j.val := fun h => (Finset.ne_of_mem_erase hi) (Fin.ext h)
  simp [this]

/-! ## The loop of `interpolate` -/

theorem foldlM_ok_sum {α : Type} (step : Int → α → Except JsError Int) (t : α → Int) :
    ∀ (l : List α) (acc : Int), (∀ a ∈ l, ∀ acc, step acc a = .ok (acc + t a)) →
      l.foldlM step acc = .ok (acc + (l.map t).sum) := by
  intro l
  induction l with
  | nil => intro acc _; simp [pure, Except.pure]
  | cons a l ih =>
    intro acc h
    rw [List.foldlM_cons, h a (List.mem_cons_self _ _) acc]
    show l.foldlM step (acc + t a) = _
    rw [ih _ fun b hb => h b (List.mem_cons_of_mem _ hb)]
    simp [add_assoc]

theorem foldlM_error {α : Type} (step : Int → α → Except JsError Int) (t : α → Int)
    (e : JsError) :
    ∀ (l : List α) (acc : Int),
      (∀ a ∈ l, (∀ acc, step acc a = .ok (acc + t a)) ∨ ∀ acc, step acc a = .error e) →
      (∃ a ∈ l, ∀ acc, step acc a = .error e) →
      l.foldlM step acc = .error e := by
  intro l
  induction l with
  | nil => intro acc _ h; simp at h
  | cons a l ih =>
    intro acc h hex
    rw [List.foldlM_cons]
    rcases h a (List.mem_cons_self _ _) with hok | herr
    · rw [hok acc]
      show l.foldlM step (acc + t a) = _
      refine ih _ (fun b hb => h b (List.mem_cons_of_mem _ hb)) ?_
      obtain ⟨b, hb, hb2⟩ := hex
      rcases List.mem_cons.mp hb with rfl | hb
      · have := hok 0; rw [hb2 0] at this; cases this
      · exact ⟨b, hb, hb2⟩
    · rw [herr acc]; rfl

theorem interpolateStep_ok (points : List Point) (x : Int) (jp : Nat × Point)
    (h : points[jp.1]? = some jp.2) (hd : basisNum points jp.1 jp.2.x ≠ 0) (acc : Int) :
    interpolateStep points x acc jp = .ok (acc + basisTerm points x jp) := by
  simp [interpolateStep, lagrangeBasis_eq points jp.1 jp.2 h, hd, basisTerm]

theorem interpolateStep_error (points : List Point) (x : Int) (jp : Nat × Point)
    (h : points[jp.1]? = some jp.2) (hd : basisNum points jp.1 jp.2.x = 0) (acc : Int) :
    interpolateStep points x acc jp = .error .divisionByZero := by
  simp [interpolateStep, lagrangeBasis_eq points jp.1 jp.2 h, hd]

theorem getElem?_of_mem_enum (points : List Point) (jp : Nat × Point)
    (h : jp ∈ points.enum) : points[jp.1]? = some jp.2 := by
  obtain ⟨j, p⟩ := jp
  exact List.mk_mem_enum_iff_getElem?.mp h

/-- The value `interpolate` returns when no denominator is zero. -/
theorem interpolate_ok (points : List Point) (x : Int)
    (h : ∀ jp ∈ points.enum, basisNum points jp.1 jp.2.x ≠ 0) :
    interpolate points x = .ok ((points.enum.map (basisTerm points x)).sum) := by
  unfold interpolate
  rw [foldlM_ok_sum (interpolateStep points x) (basisTerm points x) points.enum 0
    fun jp hjp acc => interpolateStep_ok points x jp (getElem?_of_mem_enum points jp hjp)
      (h jp hjp) acc]
  simp

/-- The exception `interpolate` raises when some denominator is zero. -/
theorem interpolate_error (points : List Point) (x : Int)
    (h : ∃ jp ∈ points.enum, basisNum points jp.1 jp.2.x = 0) :
    interpolate points x = .error .divisionByZero := by
  unfold interpolate
  refine foldlM_error (interpolateStep points x) (basisTerm points x) _ points.enum 0 ?_ ?_
  · intro jp hjp
    by_cases hd : basisNum points jp.1 jp.2.x = 0
    · exact Or.inr fun acc =>
        interpolateStep_error points x jp (getElem?_of_mem_enum points jp hjp) hd acc
    · exact Or.inl fun acc =>
        interpolateStep_ok points x jp (getElem?_of_mem_enum points jp hjp) hd acc
  · obtain ⟨jp, hjp, hd⟩ := h
    exact ⟨jp, hjp, fun acc =>
      interpolateStep_error points x jp (getElem?_of_mem_enum points jp hjp) hd acc⟩

/-! ## Zero denominators and repeated x-coordinates -/

theorem basisNum_eq_zero_iff (points : List Point) (j : Nat) (xj : Int) :
    basisNum points j xj = 0 ↔ ∃ i, i ≠ j ∧ ∃ q, points[i]? = some q ∧ q.x = xj := by
  unfold basisNum
  rw [List.prod_eq_zero_iff, List.mem_map]
  constructor
  · rintro ⟨q, hq, h0⟩
    obtain ⟨i, hij, hi⟩ := List.mem_eraseIdx_iff_getElem?.mp hq
    exact ⟨i, hij, q, hi, by omega⟩
  · rintro ⟨i, hij, q, hi, hx⟩
    exact ⟨q, List.mem_eraseIdx_iff_getElem?.mpr ⟨i, hij, hi⟩, by omega⟩

theorem denominators_ne_zero (points : List Point) (hnd : (points.map Point.x).Nodup) :
    ∀ jp ∈ points.enum, basisNum points jp.1 jp.2.x ≠ 0 := by
  intro jp hjp h0
  have hj := getElem?_of_mem_enum points jp hjp
  obtain ⟨i, hij, q, hi, hx⟩ := (basisNum_eq_zero_iff points jp.1 jp.2.x).mp h0
  have hinj := List.nodup_iff_injective_getElem.mp hnd
  have hil : i < points.length := (List.getElem?_eq_some_iff.mp hi).1
  have hjl : jp.1 < points.length := (List.getElem?_eq_some_iff.mp hj).1
  have hiq : points[i] = q := (List.getElem?_eq_some_iff.mp hi).2
  have hjq : points[jp.1] = jp.2 := (List.getElem?_eq_some_iff.mp hj).2
  have := @hinj ⟨i, by simpa using hil⟩ ⟨jp.1, by simpa using hjl⟩
    (by simp [hiq, hjq, hx])
  exact hij (by simpa using congrArg Fin.val this)

theorem denominator_zero_of_dup (points : List Point) (i j : Nat) (hij : i ≠ j)
    (pi pj : Point) (hi : points[i]? = some pi) (hj : points[j]? = some pj)
    (hx : pi.x = pj.x) :
    ∃ jp ∈ points.enum, basisNum points jp.1 jp.2.x = 0 :=
  ⟨(j, pj), List.mk_mem_enum_iff_getElem?.mpr hj,
    (basisNum_eq_zero_iff points j pj.x).mpr ⟨i, hij, pi, hi, hx⟩⟩

theorem exists_dup_of_not_nodup (points : List Point)
    (h : ¬ (points.map Point.x).Nodup) :
    ∃ (i j : Nat) (pi pj : Point), i ≠ j ∧ points[i]? = some pi ∧ points[j]? = some pj ∧
      pi.x = pj.x := by
  rw [List.nodup_iff_getElem?_ne_getElem?] at h
  push_neg at h
  obtain ⟨i, j, hlt, hj, heq⟩ := h
  have hjl : j < points.length := by simpa using hj
  have hil : i < points.length := by omega
  refine ⟨i, j, points[i], points[j], by omega, by simp [hil], by simp [hjl], ?_⟩
  simpa [hil, hjl] using heq

/-! ## Independence of the order of the points -/

/-- The product of `x - q.x` over the entries of `points` with one occurrence
of `p` removed. -/
def otherProd (points : List Point) (p : Point) (x : Int) : Int :=
  ((points.erase p).map fun q => x - q.x).prod

/-- The term of `interpolate` for the entry `p`, by value instead of index. -/
def pointTerm (points : List Point) (x : Int) (p : Point) : Int :=
  (p.y * otherProd points p x).tdiv (otherProd points p p.x)

theorem basisNum_eq_otherProd (points : List Point) (j : Nat) (pj : Point)
    (h : points[j]? = some pj) (x : Int) :
    basisNum points j x = otherProd points pj x := by
  obtain ⟨hj, rfl⟩ := List.getElem?_eq_some_iff.mp h
  unfold basisNum otherProd
  exact ((List.erase_getElem hj).map _).prod_eq.symm

theorem basisTerm_eq_pointTerm (points : List Point) (x : Int) (jp : Nat × Point)
    (h : jp ∈ points.enum) : basisTerm points x jp = pointTerm points x jp.2 := by
  have hj := getElem?_of_mem_enum points jp h
  simp only [basisTerm, pointTerm, basisNum_eq_otherProd points jp.1 jp.2 hj]

theorem sum_basisTerm (points : List Point) (x : Int) :
    (points.enum.map (basisTerm points x)).sum = (points.map (pointTerm points x)).sum := by
  have e : points.enum.map (basisTerm points x) =
      points.enum.map (pointTerm points x ∘ Prod.snd) :=
    List.map_congr_left fun jp hjp => basisTerm_eq_pointTerm points x jp hjp
  rw [e, ← List.map_map, List.enum_map_snd]

theorem interpolate_of_nodup (points : List Point) (x : Int)
    (hnd : (points.map Point.x).Nodup) :
    interpolate points x = .ok ((points.map (pointTerm points x)).sum) := by
  rw [interpolate_ok points x (denominators_ne_zero points hnd), sum_basisTerm]

theorem interpolate_of_not_nodup (points : List Point) (x : Int)
    (hnd : ¬ (points.map Point.x).Nodup) :
    interpolate points x = .error .divisionByZero := by
  obtain ⟨i, j, pi, pj, hij, hi, hj, hx⟩ := exists_dup_of_not_nodup points hnd
  exact interpolate_error points x (denominator_zero_of_dup points i j hij pi pj hi hj hx)

theorem otherProd_perm {points points' : List Point} (h : points.Perm points')
    (p : Point) (x : Int) : otherProd points p x = otherProd points' p x := by
  unfold otherProd
  exact ((h.erase p).map _).prod_eq

theorem sum_pointTerm_perm {points points' : List Point} (h : points.Perm points')
    (x : Int) :
    (points.map (pointTerm points x)).sum = (points'.map (pointTerm points' x)).sum := by
  have e : pointTerm points x = pointTerm points' x := by
    funext p
    simp only [pointTerm, otherProd_perm h]
  rw [e]
  exact (h.map _).sum_eq

/-! ## Sums over the indices -/

theorem sum_map_enumFrom {α : Type} (F : Nat × α → Int) :
    ∀ (l : List α) (s : Nat),
      ((l.enumFrom s).map F).sum = ∑ i : Fin l.length, F (s + i.val, l.get i) := by
  intro l
  induction l with
  | nil => intro s; simp
  | cons a t ih =>
    intro s
    refine Eq.trans ?_ (Fin.sum_univ_succ (n := t.length) _).symm
    simp only [List.enumFrom_cons, List.map_cons, List.sum_cons, ih (s + 1)]
    congr 1
    refine Finset.sum_congr rfl fun i _ => ?_
    have e : s + 1 + i.val = s + (i.val + 1) := by omega
    simp [e]

theorem sum_map_enum {α : Type} (F : Nat × α → Int) (l : List α) :
    (l.enum.map F).sum = ∑ i : Fin l.length, F (i.val, l.get i) := by
  rw [List.enum, sum_map_enumFrom F l 0]
  simp

/-- The polynomial with coefficient list `coeffs` (constant term first),
evaluated at `x`. -/
def evalPoly (coeffs : List Int) (x : Int) : Int :=
  (coeffs.enum.map fun ic => ic.2 * x ^ ic.1).sum

theorem evalPoly_zero (coeffs : List Int) : evalPoly coeffs 0 = coeffs.headD 0 := by
  unfold evalPoly
  rw [sum_map_enum]
  cases coeffs with
  | nil => simp
  | cons c cs =>
    refine (Fin.sum_univ_succ (n := cs.length) _).trans ?_
    simp

theorem exists_polynomial (coeffs : List Int) :
    ∃ P : Polynomial ℚ, P.degree < coeffs.length ∧
      ∀ x : Int, P.eval (x : ℚ) = ((evalPoly coeffs x : Int) : ℚ) := by
  refine ⟨∑ i : Fin coeffs.length, Polynomial.C ((coeffs.get i : Int) : ℚ) * Polynomial.X ^ (i : ℕ),
    Polynomial.degree_sum_fin_lt _, fun x => ?_⟩
  unfold evalPoly
  rw [sum_map_enum]
  simp [Polynomial.eval_finset_sum]

/-! ## Agreement with the interpolation polynomial -/

theorem basisNum_eq_prod (points : List Point) (j : Fin points.length) (x : Int) :
    basisNum points j.val x = ∏ i in Finset.univ.erase j, (x - (points.get i).x) :=
  (prod_erase_eq_eraseIdx (fun p => x - p.x) points j).symm

theorem cast_basisTerm (points : List Point) (x : Int) (j : Fin points.length)
    (hD : basisNum points j.val (points.get j).x ≠ 0)
    (hdvd : basisNum points j.val (points.get j).x ∣
      (points.get j).y * basisNum points j.val x) :
    ((basisTerm points x (j.val, points.get j) : Int) : ℚ) =
      ((points.get j).y : ℚ) * ∏ i in Finset.univ.erase j,
        ((((points.get j).x : Int) : ℚ) - (((points.get i).x : Int) : ℚ))⁻¹ *
          ((x : ℚ) - (((points.get i).x : Int) : ℚ)) := by
  have hDq : ((basisNum points j.val (points.get j).x : Int) : ℚ) ≠ 0 :=
    Int.cast_ne_zero.mpr hD
  unfold basisTerm
  rw [Int.tdiv_eq_ediv_of_dvd hdvd, Int.cast_div hdvd hDq, Finset.prod_mul_distrib,
    Finset.prod_inv_distrib]
  simp only [basisNum_eq_prod]
  push_cast
  rw [div_eq_mul_inv]
  ring

theorem interpolate_eq_evalPoly (coeffs : List Int) (points : List Point) (x : Int)
    (hdeg : coeffs.length ≤ points.length) (hnd : (points.map Point.x).Nodup)
    (hon : ∀ p ∈ points, p.y = evalPoly coeffs p.x)
    (hex : ∀ jp ∈ points.enum,
      basisNum points jp.1 jp.2.x ∣ jp.2.y * basisNum points jp.1 x) :
    interpolate points x = .ok (evalPoly coeffs x) := by
  have hden := denominators_ne_zero points hnd
  rw [interpolate_ok points x hden]
  congr 1
  apply Int.cast_injective (α := ℚ)
  rw [sum_map_enum]
  obtain ⟨P, hPdeg, hP⟩ := exists_polynomial coeffs
  rw [← hP x]
  have hmem : ∀ j : Fin points.length, (j.val, points.get j) ∈ points.enum := fun j =>
    List.mk_mem_enum_iff_getElem?.mpr (by simp)
  have hinj : Set.InjOn (fun i : Fin points.length => (((points.get i).x : Int) : ℚ))
      ((Finset.univ : Finset (Fin points.length)) : Set (Fin points.length)) := by
    intro a _ b _ hab
    have hab' : (points.get a).x = (points.get b).x := Int.cast_injective hab
    have hg := List.nodup_iff_injective_get.mp hnd
    have := @hg ⟨a.val, by simp⟩ ⟨b.val, by simp⟩ (by simpa using hab')
    exact Fin.ext (by simpa using congrArg Fin.val this)
  have hI := Lagrange.eq_interpolate_of_eval_eq (s := Finset.univ)
    (v := fun i : Fin points.length => (((points.get i).x : Int) : ℚ))
    (r := fun i : Fin points.length => (((points.get i).y : Int) : ℚ)) (f := P) hinj
    (by
      rw [Finset.card_univ, Fintype.card_fin]
      exact lt_of_lt_of_le hPdeg (by exact_mod_cast hdeg))
    (by
      intro i _
      simp only
      rw [hP, hon (points.get i) (List.get_mem _ _ _)])
  rw [hI, Lagrange.interpolate_apply, Polynomial.eval_finset_sum, Int.cast_sum]
  refine Finset.sum_congr rfl fun j _ => ?_
  rw [cast_basisTerm points x j (hden _ (hmem j)) (hex _ (hmem j))]
  simp [Lagrange.basis, Lagrange.basisDivisor, Polynomial.eval_prod]

/-! ## The accumulation of `convertToBase10` -/

/-- The standard positional value of the digit list `ds` (most significant
digit first) in base `b`: the sum of `ds[i] * b ^ (ds.length - 1 - i)`. -/
def positionalValue (ds : List Nat) (b : Int) : Int :=
  (ds.enum.map fun id => (id.2 : Int) * b ^ (ds.length - 1 - id.1)).sum

/-- The digit values of the characters of `s` that lie in the alphabet. -/
def digitValues (s : String) : List Nat :=
  s.toList.filterMap digitOf

theorem positionalValue_cons (d : Nat) (ds : List Nat) (b : Int) :
    positionalValue (d :: ds) b = (d : Int) * b ^ ds.length + positionalValue ds b := by
  unfold positionalValue
  rw [sum_map_enum, sum_map_enum]
  refine (Fin.sum_univ_succ (n := ds.length) _).trans ?_
  simp only [List.length_cons, Fin.val_zero, List.get_eq_getElem, List.getElem_cons_zero,
    Fin.val_succ, List.getElem_cons_succ, Nat.add_sub_cancel, Nat.sub_zero]
  congr 1
  refine Finset.sum_congr rfl fun i _ => ?_
  have e : ds.length - (i.val + 1) = ds.length - 1 - i.val := by omega
  rw [e]

theorem length_filterMap_digitOf :
    ∀ (t : List Char), (∀ c ∈ t, ∃ d, digitOf c = some d) →
      (t.filterMap digitOf).length = t.length := by
  intro t
  induction t with
  | nil => intro _; rfl
  | cons a t iht =>
    intro ht
    obtain ⟨e, he⟩ := ht a (List.mem_cons_self _ _)
    rw [List.filterMap_cons, he]
    simp [iht fun c hc => ht c (List.mem_cons_of_mem _ hc)]

theorem foldlM_convertStep (b : Int) :
    ∀ (cs : List Char) (acc : Int), (∀ c ∈ cs, ∃ d, digitOf c = some d) →
      cs.foldlM (convertStep b) acc =
        .ok (acc * b ^ cs.length + positionalValue (cs.filterMap digitOf) b) := by
  intro cs
  induction cs with
  | nil => intro acc _; simp [positionalValue, pure, Except.pure]
  | cons c t ih =>
    intro acc h
    obtain ⟨d, hd⟩ := h c (List.mem_cons_self _ _)
    have ht : ∀ c ∈ t, ∃ d, digitOf c = some d := fun c hc => h c (List.mem_cons_of_mem _ hc)
    have hlen := length_filterMap_digitOf t ht
    rw [List.foldlM_cons]
    have hstep : convertStep b acc c = .ok (acc * b + (d : Int)) := by
      simp [convertStep, hd]
    rw [hstep]
    show t.foldlM (convertStep b) (acc * b + (d : Int)) = _
    rw [ih _ ht, List.filterMap_cons, hd]
    simp only [positionalValue_cons, hlen, List.length_cons]
    congr 1
    ring

theorem convertToBase10_valid (s : String) (b : Int)
    (h : ∀ c ∈ s.toList, ∃ d, digitOf c = some d) :
    convertToBase10 s b = .ok (positionalValue (digitValues s) b) := by
  unfold convertToBase10 digitValues
  rw [foldlM_convertStep b s.toList 0 h]
  simp

/-! ## The decoding loop and the selection of `main` -/

/-- Whether `convertToBase10` returns a value on the record `s`. -/
def decodes (s : ShareRecord) : Bool :=
  (convertToBase10 s.value s.base).toBool

/-- The point `{ x, y }` that `main` pushes for the record `s` when it
decodes (`y` is `0` when it does not). -/
def pointOf (s : ShareRecord) : Point :=
  match convertToBase10 s.value s.base with
  | .ok y => ⟨s.x, y⟩
  | .error _ => ⟨s.x, 0⟩

theorem decodeShare_of_decodes (s : ShareRecord) (h : decodes s = true) :
    decodeShare s = .ok (pointOf s) := by
  unfold decodes at h
  unfold decodeShare pointOf
  cases hc : convertToBase10 s.value s.base with
  | error e => rw [hc] at h; simp [Except.toBool] at h
  | ok y => rfl

theorem mapM_decodeShare :
    ∀ (shares : List ShareRecord), (∀ s ∈ shares, decodes s = true) →
      shares.mapM decodeShare = .ok (shares.map pointOf) := by
  intro shares
  induction shares with
  | nil => intro _; rfl
  | cons s t ih =>
    intro h
    rw [List.mapM_cons, decodeShare_of_decodes s (h s (List.mem_cons_self _ _)),
      ih fun a ha => h a (List.mem_cons_of_mem _ ha)]
    rfl

theorem slice0_natCast (points : List Point) (k : Nat) :
    slice0 points (k : Int) = points.take k := by
  simp [slice0]

theorem main_of_decodes (shares : List ShareRecord) (k : Nat)
    (h : ∀ s ∈ shares, decodes s = true) :
    main shares (k : Int) = interpolate ((shares.map pointOf).take k) 0 := by
  unfold main
  rw [mapM_decodeShare shares h]
  simp only [slice0_natCast]

theorem decodes_of_digits (s : ShareRecord)
    (h : ∀ c ∈ s.value.toList, (digitOf c).isSome = true) : decodes s = true := by
  unfold decodes
  rw [convertToBase10_valid s.value s.base fun c hc => Option.isSome_iff_exists.mp (h c hc)]
  rfl

theorem pointOf_of_digits (s : ShareRecord)
    (h : ∀ c ∈ s.value.toList, (digitOf c).isSome = true) :
    pointOf s = ⟨s.x, positionalValue (digitValues s.value) s.base⟩ := by
  unfold pointOf
  rw [convertToBase10_valid s.value s.base fun c hc => Option.isSome_iff_exists.mp (h c hc)]

theorem interpolate_singleton (p : Point) (x : Int) : interpolate [p] x = .ok p.y := by
  rw [interpolate_of_nodup [p] x (by simp)]
  simp [pointTerm, otherProd]

/-! ## Exact term divisions -/

/-- The negation of the test `termNumerator % denominator !== 0n` of main.js 51
at the entry `jp`: the division of line 57 leaves no remainder. -/
def termExact (points : List Point) (x : Int) (jp : Nat × Point) : Bool :=
  match lagrangeBasis points jp.1 x with
  | .ok b => (jp.2.y * b.numerator).tmod b.denominator == 0
  | .error _ => false

theorem dvd_of_termExact (points : List Point) (x : Int)
    (h : ∀ jp ∈ points.enum, termExact points x jp = true) :
    ∀ jp ∈ points.enum, basisNum points jp.1 jp.2.x ∣ jp.2.y * basisNum points jp.1 x := by
  intro jp hjp
  have hb := lagrangeBasis_eq points jp.1 jp.2 (getElem?_of_mem_enum points jp hjp) x
  have ht := h jp hjp
  simp only [termExact, hb, beq_iff_eq] at ht
  exact Int.dvd_of_tmod_eq_zero ht

/-! ## The claims -/

/-- Where every term division of `interpolate` at `0` is exact, the points of
a polynomial with integer coefficient list `coeffs`, at least as many as its
coefficients and with pairwise distinct x-coordinates, are interpolated at `0`
to its constant term. -/
theorem interpolate_zero_constant_term (coeffs : List Int) (points : List Point)
    (hdeg : coeffs.length ≤ points.length)
    (hnd : (points.map Point.x).Nodup)
    (hon : ∀ p ∈ points, p.y = evalPoly coeffs p.x)
    (hex : ∀ jp ∈ points.enum, termExact points 0 jp = true) :
    interpolate points 0 = .ok (evalPoly coeffs 0) ∧ evalPoly coeffs 0 = coeffs.headD 0 :=
  ⟨interpolate_eq_evalPoly coeffs points 0 hdeg hnd hon (dvd_of_termExact points 0 hex),
    evalPoly_zero coeffs⟩

theorem interpolate_zero_constant_term_witness :
    interpolate [⟨1, 4⟩, ⟨2, 7⟩, ⟨3, 12⟩] 0 = .ok (evalPoly [3, 0, 1] 0) ∧
      evalPoly [3, 0, 1] 0 = ([3, 0, 1] : List Int).headD 0 :=
  interpolate_zero_constant_term [3, 0, 1] [⟨1, 4⟩, ⟨2, 7⟩, ⟨3, 12⟩] (by decide) (by decide)
    (by decide) (by decide)

/-- Without the exactness of the term divisions the constant term is not
always returned: the points `(1,1)`, `(3,1)`, `(5,1)` of the constant
polynomial `1` are interpolated to `0` at `0`. -/
theorem interpolate_zero_constant_term_fails :
    ¬ ∀ (coeffs : List Int) (points : List Point), 1 ≤ points.length →
      coeffs.length ≤ points.length → (points.map Point.x).Nodup →
      (∀ p ∈ points, p.y = evalPoly coeffs p.x) →
      interpolate points 0 = .ok (evalPoly coeffs 0) := by
  intro h
  have := h [1] [⟨1, 1⟩, ⟨3, 1⟩, ⟨5, 1⟩] (by decide) (by decide) (by decide) (by decide)
  exact absurd this (by decide)

/-- C1, evaluated on the code: the three points `(1,1)`, `(3,1)`, `(5,1)` have
pairwise distinct x-coordinates and lie on the constant polynomial `1`, of
degree `0 <= 2`, so they are correct shares of the secret `1`.  The fractions
that `lagrangeBasis` returns at `0` are `15/8`, `5/(-4)` and `3/8`; each of the
three term divisions leaves a remainder (the test of main.js 51 holds every
time), the quotients added are `1`, `-1` and `0`, and `interpolate` returns
`0`, not the constant term `1`. -/
theorem interpolate_correct_shares_wrong_secret :
    (([⟨1, 1⟩, ⟨3, 1⟩, ⟨5, 1⟩] : List Point).map Point.x).Nodup ∧
      (∀ p ∈ ([⟨1, 1⟩, ⟨3, 1⟩, ⟨5, 1⟩] : List Point), p.y = evalPoly [1] p.x) ∧
      ([1] : List Int).length ≤ ([⟨1, 1⟩, ⟨3, 1⟩, ⟨5, 1⟩] : List Point).length ∧
      evalPoly [1] 0 = 1 ∧
      lagrangeBasis [⟨1, 1⟩, ⟨3, 1⟩, ⟨5, 1⟩] 0 0 = .ok ⟨15, 8⟩ ∧
      lagrangeBasis [⟨1, 1⟩, ⟨3, 1⟩, ⟨5, 1⟩] 1 0 = .ok ⟨5, -4⟩ ∧
      lagrangeBasis [⟨1, 1⟩, ⟨3, 1⟩, ⟨5, 1⟩] 2 0 = .ok ⟨3, 8⟩ ∧
      ([⟨1, 1⟩, ⟨3, 1⟩, ⟨5, 1⟩] : List Point).enum.map
          (termExact [⟨1, 1⟩, ⟨3, 1⟩, ⟨5, 1⟩] 0) = [false, false, false] ∧
      ([⟨1, 1⟩, ⟨3, 1⟩, ⟨5, 1⟩] : List Point).enum.map
          (basisTerm [⟨1, 1⟩, ⟨3, 1⟩, ⟨5, 1⟩] 0) = [1, -1, 0] ∧
      interpolate [⟨1, 1⟩, ⟨3, 1⟩, ⟨5, 1⟩] 0 = .ok 0 := by
  decide

/-- C3, evaluated on the code: in base `2` the strings `"9"` and `"f"`, whose
digit values `9` and `15` are not below the base, are accepted and decoded to
`9` and `15`; no exception is raised. -/
theorem convertToBase10_digit_above_base :
    convertToBase10 "9" 2 = .ok 9 ∧ convertToBase10 "f" 2 = .ok 15 ∧
      digitOf '9' = some 9 ∧ digitOf 'f' = some 15 := by
  decide

/-- C4, as amended: on the points `(1,4)`, `(2,7)`, `(3,12)` in that order with
`k = 3`, `interpolate` at `0` and the reconstruction from the three shares both
return `3`, the constant term of `x^2 + 3`, on which the three points lie. -/
theorem interpolate_scenario_three :
    interpolate (([⟨1, 4⟩, ⟨2, 7⟩, ⟨3, 12⟩] : List Point).take 3) 0 = .ok 3 ∧
      main [⟨1, 10, "4"⟩, ⟨2, 10, "7"⟩, ⟨3, 10, "12"⟩] 3 = .ok 3 ∧
      ([⟨1, 4⟩, ⟨2, 7⟩, ⟨3, 12⟩] : List Point).map (fun p => evalPoly [3, 0, 1] p.x) =
        [4, 7, 12] := by
  decide

/-- C4, as stated, fails: on the points `(1,4)`, `(2,7)`, `(3,12)` with `k = 3`
the value returned is not `2`. -/
theorem interpolate_scenario_not_two :
    interpolate (([⟨1, 4⟩, ⟨2, 7⟩, ⟨3, 12⟩] : List Point).take 3) 0 ≠ .ok 2 ∧
      main [⟨1, 10, "4"⟩, ⟨2, 10, "7"⟩, ⟨3, 10, "12"⟩] 3 ≠ .ok 2 := by
  decide

/-- Whether the exception comes from a `throw` statement of main.js, of which
there is one (line 11), and not from the runtime. -/
def thrownBySource : JsError → Bool
  | .invalidCharacter _ => true
  | .divisionByZero => false
  | .typeError => false

/-- C5, as amended: for every list of points in which the entries at two
different indices `i` and `j` have the same x-coordinate, and every target
`x`, `lagrangeBasis points j x` returns a fraction with denominator `0` without
failing, and `interpolate points x` raises the runtime's division-by-zero
exception at the `%` of main.js 51, so it returns no integer. -/
theorem interpolate_duplicate_x (points : List Point) (x : Int) (i j : Nat)
    (hi : i < points.length) (hj : j < points.length) (hij : i ≠ j)
    (hx : points[i].x = points[j].x) :
    (∃ b, lagrangeBasis points j x = .ok b ∧ b.denominator = 0) ∧
      interpolate points x = .error .divisionByZero ∧
      ∀ v, interpolate points x ≠ .ok v := by
  have h : interpolate points x = .error .divisionByZero :=
    interpolate_error points x
      (denominator_zero_of_dup points i j hij points[i] points[j] (by simp [hi]) (by simp [hj])
        hx)
  refine ⟨⟨_, lagrangeBasis_eq points j points[j] (by simp [hj]) x, ?_⟩, h,
    fun v hv => by rw [h] at hv; cases hv⟩
  exact (basisNum_eq_zero_iff points j points[j].x).mpr
    ⟨i, hij, points[i], by simp [hi], hx⟩

theorem interpolate_duplicate_x_witness :
    (∃ b, lagrangeBasis [⟨1, 1⟩, ⟨2, 5⟩, ⟨1, 2⟩] 2 7 = .ok b ∧ b.denominator = 0) ∧
      interpolate [⟨1, 1⟩, ⟨2, 5⟩, ⟨1, 2⟩] 7 = .error .divisionByZero ∧
      ∀ v, interpolate [⟨1, 1⟩, ⟨2, 5⟩, ⟨1, 2⟩] 7 ≠ .ok v :=
  interpolate_duplicate_x [⟨1, 1⟩, ⟨2, 5⟩, ⟨1, 2⟩] 7 0 2 (by decide) (by decide) (by decide)
    (by decide)

/-- C5, as stated, fails: on the points `(1,1)`, `(1,2)`, which share the
x-coordinate `1`, `lagrangeBasis` returns the fraction `6/0` at both indices
for the target `7` and reports nothing, and the exception that `interpolate`
raises is the runtime's division by zero, which no `throw` statement of the
source produces: the source has no duplicate-x-coordinate error. -/
theorem interpolate_duplicate_x_no_check :
    lagrangeBasis [⟨1, 1⟩, ⟨1, 2⟩] 0 7 = .ok ⟨6, 0⟩ ∧
      lagrangeBasis [⟨1, 1⟩, ⟨1, 2⟩] 1 7 = .ok ⟨6, 0⟩ ∧
      interpolate [⟨1, 1⟩, ⟨1, 2⟩] 7 = .error .divisionByZero ∧
      thrownBySource .divisionByZero = false ∧
      ¬ ∃ e, interpolate [⟨1, 1⟩, ⟨1, 2⟩] 7 = .error e ∧ thrownBySource e = true := by
  refine ⟨by decide, by decide, by decide, rfl, ?_⟩
  rintro ⟨e, he, ht⟩
  have h : interpolate [⟨1, 1⟩, ⟨1, 2⟩] 7 = .error .divisionByZero := by decide
  rw [h] at he
  cases he
  cases ht

/-- C6, as amended: for every share list with fewer than `k` shares, all of
which decode, the reconstruction makes no count check and returns the value of
`interpolate` at `0` over all the decoded points that are present. -/
theorem main_fewer_than_k (shares : List ShareRecord) (k : Nat)
    (hdec : ∀ s ∈ shares, decodes s = true) (hlt : shares.length < k) :
    main shares (k : Int) = interpolate (shares.map pointOf) 0 := by
  rw [main_of_decodes shares k hdec, List.take_of_length_le (by simp; omega)]

theorem main_fewer_than_k_witness :
    main [⟨1, 10, "4"⟩, ⟨2, 10, "7"⟩] ((3 : Nat) : Int) =
      interpolate (([⟨1, 10, "4"⟩, ⟨2, 10, "7"⟩] : List ShareRecord).map pointOf) 0 :=
  main_fewer_than_k [⟨1, 10, "4"⟩, ⟨2, 10, "7"⟩] 3 (by decide) (by decide)

/-- C6, as stated, fails: with the two shares `(1, "4")` and `(2, "7")` in base
`10` and `k = 3` the reconstruction returns `1`, the value at `0` of the line
through `(1,4)` and `(2,7)`, and raises no exception. -/
theorem main_two_shares_of_three :
    main [⟨1, 10, "4"⟩, ⟨2, 10, "7"⟩] 3 = .ok 1 ∧
      interpolate [⟨1, 4⟩, ⟨2, 7⟩] 0 = .ok 1 := by
  decide

/-- C7, as amended: for every list of share records whose declared bases are
integers outside `[2,16]` and whose digit strings lie in the alphabet, no
record is rejected: `convertToBase10` is applied with the declared base, each
record decodes to the sum of `d_i * base ^ (len - 1 - i)`, and the secret is
`interpolate` at `0` of the first `k` decoded points. -/
theorem main_base_out_of_range (shares : List ShareRecord) (k : Nat)
    (hbase : ∀ s ∈ shares, s.base < 2 ∨ 16 < s.base)
    (hdig : ∀ s ∈ shares, ∀ c ∈ s.value.toList, (digitOf c).isSome = true) :
    (∀ s ∈ shares, (s.base < 2 ∨ 16 < s.base) ∧
        convertToBase10 s.value s.base =
          .ok (positionalValue (digitValues s.value) s.base)) ∧
      main shares (k : Int) =
        interpolate ((shares.map fun s =>
          (⟨s.x, positionalValue (digitValues s.value) s.base⟩ : Point)).take k) 0 := by
  refine ⟨fun s hs => ⟨hbase s hs, convertToBase10_valid s.value s.base fun c hc =>
    Option.isSome_iff_exists.mp (hdig s hs c hc)⟩, ?_⟩
  rw [main_of_decodes shares k fun s hs => decodes_of_digits s (hdig s hs)]
  congr 2
  exact List.map_congr_left fun s hs => pointOf_of_digits s (hdig s hs)

theorem main_base_out_of_range_witness :
    (∀ s ∈ ([⟨1, 17, "10"⟩, ⟨2, 1, "111"⟩] : List ShareRecord),
        (s.base < 2 ∨ 16 < s.base) ∧
        convertToBase10 s.value s.base =
          .ok (positionalValue (digitValues s.value) s.base)) ∧
      main [⟨1, 17, "10"⟩, ⟨2, 1, "111"⟩] ((2 : Nat) : Int) =
        interpolate ((([⟨1, 17, "10"⟩, ⟨2, 1, "111"⟩] : List ShareRecord).map fun s =>
          (⟨s.x, positionalValue (digitValues s.value) s.base⟩ : Point)).take 2) 0 :=
  main_base_out_of_range [⟨1, 17, "10"⟩, ⟨2, 1, "111"⟩] 2 (by decide) (by decide)

/-- C7, as stated, fails: a single share of declared base `17` with digits
`"10"`, and one of declared base `1` with digits `"111"`, are decoded by
`convertToBase10` to `17` and `3`, and with `k = 1` that value is returned as
the secret. -/
theorem main_base_not_rejected :
    main [⟨1, 17, "10"⟩] 1 = .ok 17 ∧ main [⟨1, 1, "111"⟩] 1 = .ok 3 ∧
      convertToBase10 "10" 17 = .ok 17 ∧ convertToBase10 "111" 1 = .ok 3 := by
  decide

/-- C8: for every list of shares that all decode and every `k`, the secret is
`interpolate` at `0` of exactly the first `k` decoded points in input order;
hence a second list of decodable shares that agrees with the first on its
first `k` entries gives the same secret. -/
theorem main_first_k (shares shares' : List ShareRecord) (k : Nat)
    (hdec : ∀ s ∈ shares, decodes s = true) (hdec' : ∀ s ∈ shares', decodes s = true)
    (hsame : shares.take k = shares'.take k) :
    main shares (k : Int) = interpolate ((shares.map pointOf).take k) 0 ∧
      main shares' (k : Int) = main shares (k : Int) := by
  refine ⟨main_of_decodes shares k hdec, ?_⟩
  rw [main_of_decodes shares k hdec, main_of_decodes shares' k hdec', ← List.map_take,
    ← List.map_take, hsame]

theorem main_first_k_witness :
    main [⟨1, 10, "4"⟩, ⟨2, 10, "7"⟩, ⟨3, 10, "12"⟩, ⟨4, 10, "99"⟩] ((3 : Nat) : Int) =
        interpolate ((([⟨1, 10, "4"⟩, ⟨2, 10, "7"⟩, ⟨3, 10, "12"⟩, ⟨4, 10, "99"⟩] :
          List ShareRecord).map pointOf).take 3) 0 ∧
      main [⟨1, 10, "4"⟩, ⟨2, 10, "7"⟩, ⟨3, 10, "12"⟩, ⟨7, 16, "fF"⟩, ⟨9, 2, "1"⟩]
          ((3 : Nat) : Int) =
        main [⟨1, 10, "4"⟩, ⟨2, 10, "7"⟩, ⟨3, 10, "12"⟩, ⟨4, 10, "99"⟩] ((3 : Nat) : Int) :=
  main_first_k [⟨1, 10, "4"⟩, ⟨2, 10, "7"⟩, ⟨3, 10, "12"⟩, ⟨4, 10, "99"⟩]
    [⟨1, 10, "4"⟩, ⟨2, 10, "7"⟩, ⟨3, 10, "12"⟩, ⟨7, 16, "fF"⟩, ⟨9, 2, "1"⟩] 3
    (by decide) (by decide) (by decide)

/-- C9: for every list of points with pairwise distinct x-coordinates, every
permutation of it and every target `x`, `interpolate` returns an integer on
the original list and the same integer on the permuted list, whether or not
the term divisions are exact. -/
theorem interpolate_perm (points points' : List Point) (x : Int)
    (hnd : (points.map Point.x).Nodup) (hperm : points.Perm points') :
    ∃ v : Int, interpolate points x = .ok v ∧ interpolate points' x = .ok v := by
  have hnd' : (points'.map Point.x).Nodup := (hperm.map Point.x).nodup_iff.mp hnd
  exact ⟨_, interpolate_of_nodup points x hnd, by
    rw [interpolate_of_nodup points' x hnd', sum_pointTerm_perm hperm x]⟩

theorem interpolate_perm_witness :
    ∃ v : Int, interpolate [⟨1, 1⟩, ⟨3, 1⟩, ⟨5, 1⟩] 0 = .ok v ∧
      interpolate [⟨5, 1⟩, ⟨1, 1⟩, ⟨3, 1⟩] 0 = .ok v :=
  interpolate_perm [⟨1, 1⟩, ⟨3, 1⟩, ⟨5, 1⟩] [⟨5, 1⟩, ⟨1, 1⟩, ⟨3, 1⟩] 0 (by decide) (by decide)

/-- C10: for every list of points, every valid index `j` (so the list is not
empty) and every integer `x`, `lagrangeBasis points j x` returns the numerator
that is the product of `x - points[i].x` over all `i` other than `j` and the
denominator that is the product of `points[j].x - points[i].x` over the same
`i`, with no other factor and unreduced. -/
theorem lagrangeBasis_products (points : List Point) (j : Fin points.length) (x : Int) :
    lagrangeBasis points j.val x =
      .ok ⟨∏ i in Finset.univ.erase j, (x - (points.get i).x),
        ∏ i in Finset.univ.erase j, ((points.get j).x - (points.get i).x)⟩ := by
  rw [lagrangeBasis_eq points j.val (points.get j) (by simp) x, basisNum_eq_prod,
    basisNum_eq_prod]

/-! ## The characters of the alphabet -/

/-- The characters `0-9`, `a-f` and `A-F`. -/
def hexChars : List Char := "0123456789abcdefABCDEF".toList

/-- Whether `c` is one of `0-9`, `a-f`, `A-F`. -/
def isHexChar (c : Char) : Bool := hexChars.contains c

theorem toLower_of_upper (n : Nat) (h : 65 ≤ n ∧ n ≤ 90) :
    (Char.ofNat n).toLower ∈ digits.toList → Char.ofNat n ∈ hexChars := by
  obtain ⟨h1, h2⟩ := h
  interval_cases n <;> decide

theorem mem_hexChars_of_toLower (c : Char) (h : c.toLower ∈ digits.toList) :
    c ∈ hexChars := by
  by_cases hc : 65 ≤ c.toNat ∧ c.toNat ≤ 90
  · have := toLower_of_upper c.toNat hc
    rw [Char.ofNat_toNat] at this
    exact this h
  · have e : c.toLower = c := by
      unfold Char.toLower
      simp only [ge_iff_le]
      rw [if_neg hc]
    rw [e] at h
    revert h
    simp only [digits, hexChars, String.toList]
    intro h
    simp only [List.mem_cons] at h ⊢
    tauto

theorem digitOf_isSome (c : Char) : (digitOf c).isSome = isHexChar c := by
  by_cases h : c ∈ hexChars
  · have e : isHexChar c = true := by simpa [isHexChar] using h
    rw [e]
    simp only [hexChars, String.toList, List.mem_cons, List.mem_singleton] at h
    rcases h with h | h | h | h | h | h | h | h | h | h | h | h | h | h | h | h | h | h | h |
      h | h | h | h <;> first | (subst h; decide) | (simp at h)
  · have e : isHexChar c = false := by simpa [isHexChar] using h
    rw [e]
    have hn : c.toLower ∉ digits.toList := fun hm => h (mem_hexChars_of_toLower c hm)
    unfold digitOf
    cases hi : digits.toList.indexOf? c.toLower with
    | none => rfl
    | some i =>
      exfalso
      apply hn
      rw [List.indexOf?, List.findIdx?_eq_some_iff_getElem] at hi
      obtain ⟨hlt, hp, _⟩ := hi
      have : digits.toList[i] = c.toLower := by simpa using hp
      rw [← this]
      exact List.getElem_mem _

/-- C11: for every list of points with fewer than 2 elements, every valid
index and every integer `x`, `lagrangeBasis` returns numerator `1` and
denominator `1`, the empty products; and a single point `(x0, y0)` is
interpolated to `y0` at every target `x`. -/
theorem lagrangeBasis_short (points : List Point) (j : Nat) (x : Int)
    (hlen : points.length < 2) (hj : j < points.length) :
    lagrangeBasis points j x = .ok ⟨1, 1⟩ ∧
      ∀ x0 y0 t : Int, interpolate [⟨x0, y0⟩] t = .ok y0 := by
  refine ⟨?_, fun x0 y0 t => interpolate_singleton ⟨x0, y0⟩ t⟩
  match points, hlen, hj with
  | [p], _, hj =>
    have hj0 : j = 0 := by simpa using hj
    subst hj0
    rw [lagrangeBasis_eq [p] 0 p rfl x]
    simp [basisNum]

theorem lagrangeBasis_short_witness :
    lagrangeBasis [⟨5, 9⟩] 0 3 = .ok ⟨1, 1⟩ ∧
      ∀ x0 y0 t : Int, interpolate [⟨x0, y0⟩] t = .ok y0 :=
  lagrangeBasis_short [⟨5, 9⟩] 0 3 (by decide) (by decide)

/-- C12: for every list of points whose x-coordinates are pairwise distinct,
every valid index `j` and every `x`, `lagrangeBasis points j x` returns a
fraction whose denominator is not zero, and `interpolate points x` returns an
integer without raising an exception. -/
theorem interpolate_total_of_distinct (points : List Point) (x : Int)
    (hnd : (points.map Point.x).Nodup) :
    (∀ j, j < points.length →
        ∃ b, lagrangeBasis points j x = .ok b ∧ b.denominator ≠ 0) ∧
      ∃ v : Int, interpolate points x = .ok v := by
  refine ⟨fun j hj => ?_, _, interpolate_of_nodup points x hnd⟩
  have hget : points[j]? = some points[j] := by simp [hj]
  refine ⟨_, lagrangeBasis_eq points j points[j] hget x, ?_⟩
  exact denominators_ne_zero points hnd (j, points[j])
    (List.mk_mem_enum_iff_getElem?.mpr hget)

theorem interpolate_total_of_distinct_witness :
    (∀ j, j < ([⟨1, 1⟩, ⟨3, 1⟩, ⟨5, 1⟩] : List Point).length →
        ∃ b, lagrangeBasis [⟨1, 1⟩, ⟨3, 1⟩, ⟨5, 1⟩] j 0 = .ok b ∧ b.denominator ≠ 0) ∧
      ∃ v : Int, interpolate [⟨1, 1⟩, ⟨3, 1⟩, ⟨5, 1⟩] 0 = .ok v :=
  interpolate_total_of_distinct [⟨1, 1⟩, ⟨3, 1⟩, ⟨5, 1⟩] 0 (by decide)

/-! ## The rational Lagrange sum -/

theorem mem_enum_get (points : List Point) (j : Fin points.length) :
    (j.val, points.get j) ∈ points.enum :=
  List.mk_mem_enum_iff_getElem?.mpr (by simp)

theorem cast_x_injOn (points : List Point) (hnd : (points.map Point.x).Nodup) :
    Set.InjOn (fun i : Fin points.length => (((points.get i).x : Int) : ℚ))
      ((Finset.univ : Finset (Fin points.length)) : Set (Fin points.length)) := by
  intro a _ b _ hab
  have hab' : (points.get a).x = (points.get b).x := Int.cast_injective hab
  have hg := List.nodup_iff_injective_get.mp hnd
  have := @hg ⟨a.val, by simp⟩ ⟨b.val, by simp⟩ (by simpa using hab')
  exact Fin.ext (by simpa using congrArg Fin.val this)

theorem eval_lagrange_interpolate (points : List Point) (x : Int) :
    (Lagrange.interpolate Finset.univ
        (fun i : Fin points.length => (((points.get i).x : Int) : ℚ))
        (fun i : Fin points.length => (((points.get i).y : Int) : ℚ))).eval (x : ℚ) =
      ∑ j : Fin points.length, ((points.get j).y : ℚ) *
        ∏ i in Finset.univ.erase j,
          (((x : ℚ) - (((points.get i).x : Int) : ℚ)) /
            ((((points.get j).x : Int) : ℚ) - (((points.get i).x : Int) : ℚ))) := by
  rw [Lagrange.interpolate_apply, Polynomial.eval_finset_sum]
  refine Finset.sum_congr rfl fun j _ => ?_
  simp only [Lagrange.basis, Lagrange.basisDivisor, Polynomial.eval_mul, Polynomial.eval_C,
    Polynomial.eval_prod, Polynomial.eval_sub, Polynomial.eval_X]
  congr 1
  refine Finset.prod_congr rfl fun i _ => ?_
  rw [div_eq_inv_mul]

theorem cast_sum_basisTerm (points : List Point) (x : Int)
    (hnd : (points.map Point.x).Nodup)
    (hex : ∀ jp ∈ points.enum,
      basisNum points jp.1 jp.2.x ∣ jp.2.y * basisNum points jp.1 x) :
    (((points.enum.map (basisTerm points x)).sum : Int) : ℚ) =
      ∑ j : Fin points.length, ((points.get j).y : ℚ) *
        ∏ i in Finset.univ.erase j,
          (((x : ℚ) - (((points.get i).x : Int) : ℚ)) /
            ((((points.get j).x : Int) : ℚ) - (((points.get i).x : Int) : ℚ))) := by
  rw [sum_map_enum, Int.cast_sum]
  refine Finset.sum_congr rfl fun j _ => ?_
  rw [cast_basisTerm points x j
    (denominators_ne_zero points hnd _ (mem_enum_get points j)) (hex _ (mem_enum_get points j))]
  congr 1
  refine Finset.prod_congr rfl fun i _ => ?_
  rw [div_eq_inv_mul]

/-- C13: for every list of points with pairwise distinct x-coordinates and
every integer `x` at which each term division of `interpolate` is exact,
`interpolate points x` returns the rational Lagrange sum, the sum over `j` of
`y_j` times the product over `i` other than `j` of `(x - x_i) / (x_j - x_i)`,
which is the value at `x` of the unique polynomial of degree below the number
of points that passes through them. -/
theorem interpolate_rational_sum (points : List Point) (x : Int)
    (hnd : (points.map Point.x).Nodup)
    (hex : ∀ jp ∈ points.enum, termExact points x jp = true) :
    ∃ v : Int, interpolate points x = .ok v ∧
      (v : ℚ) = ∑ j : Fin points.length, ((points.get j).y : ℚ) *
        ∏ i in Finset.univ.erase j,
          (((x : ℚ) - (((points.get i).x : Int) : ℚ)) /
            ((((points.get j).x : Int) : ℚ) - (((points.get i).x : Int) : ℚ))) ∧
      ∃ P : Polynomial ℚ, P.degree < points.length ∧
        (∀ i : Fin points.length,
          P.eval (((points.get i).x : Int) : ℚ) = (((points.get i).y : Int) : ℚ)) ∧
        (∀ Q : Polynomial ℚ, Q.degree < points.length →
          (∀ i : Fin points.length,
            Q.eval (((points.get i).x : Int) : ℚ) = (((points.get i).y : Int) : ℚ)) →
          Q = P) ∧
        P.eval (x : ℚ) = (v : ℚ) := by
  have hinj := cast_x_injOn points hnd
  have hcard : (Finset.univ : Finset (Fin points.length)).card = points.length := by
    rw [Finset.card_univ, Fintype.card_fin]
  have hsum := cast_sum_basisTerm points x hnd (dvd_of_termExact points x hex)
  refine ⟨_, interpolate_ok points x (denominators_ne_zero points hnd), hsum,
    Lagrange.interpolate Finset.univ
      (fun i : Fin points.length => (((points.get i).x : Int) : ℚ))
      (fun i : Fin points.length => (((points.get i).y : Int) : ℚ)), ?_, ?_, ?_, ?_⟩
  · have h := Lagrange.degree_interpolate_lt (s := Finset.univ)
      (fun i : Fin points.length => (((points.get i).y : Int) : ℚ)) hinj
    rwa [hcard] at h
  · intro i
    exact Lagrange.eval_interpolate_at_node _ hinj (Finset.mem_univ i)
  · intro Q hQ hQe
    exact Lagrange.eq_interpolate_of_eval_eq _ hinj (by rwa [hcard]) fun i _ => hQe i
  · rw [eval_lagrange_interpolate, hsum]

theorem interpolate_rational_sum_witness :
    ∃ v : Int, interpolate [⟨1, 4⟩, ⟨2, 7⟩, ⟨3, 12⟩] 0 = .ok v ∧
      (v : ℚ) = ∑ j : Fin ([⟨1, 4⟩, ⟨2, 7⟩, ⟨3, 12⟩] : List Point).length,
        ((([⟨1, 4⟩, ⟨2, 7⟩, ⟨3, 12⟩] : List Point).get j).y : ℚ) *
        ∏ i in Finset.univ.erase j,
          ((((0 : Int) : ℚ) - ((([⟨1, 4⟩, ⟨2, 7⟩, ⟨3, 12⟩] : List Point).get i).x : ℚ)) /
            (((([⟨1, 4⟩, ⟨2, 7⟩, ⟨3, 12⟩] : List Point).get j).x : ℚ) -
              ((([⟨1, 4⟩, ⟨2, 7⟩, ⟨3, 12⟩] : List Point).get i).x : ℚ))) ∧
      ∃ P : Polynomial ℚ, P.degree < ([⟨1, 4⟩, ⟨2, 7⟩, ⟨3, 12⟩] : List Point).length ∧
        (∀ i : Fin ([⟨1, 4⟩, ⟨2, 7⟩, ⟨3, 12⟩] : List Point).length,
          P.eval ((([⟨1, 4⟩, ⟨2, 7⟩, ⟨3, 12⟩] : List Point).get i).x : ℚ) =
            ((([⟨1, 4⟩, ⟨2, 7⟩, ⟨3, 12⟩] : List Point).get i).y : ℚ)) ∧
        (∀ Q : Polynomial ℚ, Q.degree < ([⟨1, 4⟩, ⟨2, 7⟩, ⟨3, 12⟩] : List Point).length →
          (∀ i : Fin ([⟨1, 4⟩, ⟨2, 7⟩, ⟨3, 12⟩] : List Point).length,
            Q.eval ((([⟨1, 4⟩, ⟨2, 7⟩, ⟨3, 12⟩] : List Point).get i).x : ℚ) =
              ((([⟨1, 4⟩, ⟨2, 7⟩, ⟨3, 12⟩] : List Point).get i).y : ℚ)) →
          Q = P) ∧
        P.eval ((0 : Int) : ℚ) = (v : ℚ) :=
  interpolate_rational_sum [⟨1, 4⟩, ⟨2, 7⟩, ⟨3, 12⟩] 0 (by decide) (by decide)

/-! ## Rounding of the term divisions -/

/-- The floor of `points[j].y * numerator_j / denominator_j` for the fraction
that `lagrangeBasis points j x` returns (`Int.fdiv` rounds toward minus
infinity). -/
def floorTerm (points : List Point) (x : Int) (jp : Nat × Point) : Int :=
  match lagrangeBasis points jp.1 x with
  | .ok b => (jp.2.y * b.numerator).fdiv b.denominator
  | .error _ => 0

/-- The sum over `j` of the floored terms. -/
def floorSum (points : List Point) (x : Int) : Int :=
  (points.enum.map (floorTerm points x)).sum

/-- C14, as amended: for every list of points with pairwise distinct
x-coordinates and every `x`, also when some term is not exactly divisible,
`interpolate` raises no exception and returns the sum over `j` of the quotient
of `points[j].y * numerator_j` by `denominator_j` rounded toward zero. -/
theorem interpolate_truncated_sum (points : List Point) (x : Int)
    (hnd : (points.map Point.x).Nodup) :
    interpolate points x =
      .ok (∑ j : Fin points.length,
        ((points.get j).y * ∏ i in Finset.univ.erase j, (x - (points.get i).x)).tdiv
          (∏ i in Finset.univ.erase j, ((points.get j).x - (points.get i).x))) := by
  rw [interpolate_ok points x (denominators_ne_zero points hnd), sum_map_enum]
  simp only [basisTerm, basisNum_eq_prod]

theorem interpolate_truncated_sum_witness :
    interpolate [⟨1, 1⟩, ⟨3, 1⟩, ⟨5, 1⟩] 0 =
      .ok (∑ j : Fin ([⟨1, 1⟩, ⟨3, 1⟩, ⟨5, 1⟩] : List Point).length,
        ((([⟨1, 1⟩, ⟨3, 1⟩, ⟨5, 1⟩] : List Point).get j).y *
          ∏ i in Finset.univ.erase j,
            (0 - (([⟨1, 1⟩, ⟨3, 1⟩, ⟨5, 1⟩] : List Point).get i).x)).tdiv
          (∏ i in Finset.univ.erase j,
            ((([⟨1, 1⟩, ⟨3, 1⟩, ⟨5, 1⟩] : List Point).get j).x -
              (([⟨1, 1⟩, ⟨3, 1⟩, ⟨5, 1⟩] : List Point).get i).x))) :=
  interpolate_truncated_sum [⟨1, 1⟩, ⟨3, 1⟩, ⟨5, 1⟩] 0 (by decide)

/-- C14, as stated, fails: on the points `(1,1)`, `(3,1)`, `(5,1)` at `x = 0`
the terms are `15/8`, `5/(-4)` and `3/8`; their floors `1`, `-2`, `0` add up to
`-1`, while `interpolate` returns `0`. -/
theorem interpolate_not_floor_sum :
    ¬ ∀ (points : List Point) (x : Int), (points.map Point.x).Nodup →
      interpolate points x = .ok (floorSum points x) := by
  intro h
  have := h [⟨1, 1⟩, ⟨3, 1⟩, ⟨5, 1⟩] 0 (by decide)
  exact absurd this (by decide)

/-! ## Case, failure and concatenation in `convertToBase10` -/

theorem digitOf_ne_none_of_hex (c : Char) (h : isHexChar c = true) :
    ∃ d, digitOf c = some d :=
  Option.isSome_iff_exists.mp (by rw [digitOf_isSome, h])

theorem digitOf_eq_none_of_not_hex (c : Char) (h : isHexChar c = false) :
    digitOf c = none := by
  have := digitOf_isSome c
  rw [h] at this
  cases hd : digitOf c with
  | none => rfl
  | some d => rw [hd] at this; cases this

theorem digitOf_case (c : Char) (h : isHexChar c = true) :
    digitOf c.toUpper = digitOf c ∧ digitOf c.toLower = digitOf c := by
  have hall : ∀ a ∈ hexChars, digitOf a.toUpper = digitOf a ∧ digitOf a.toLower = digitOf a := by
    decide
  exact hall c (by simpa [isHexChar] using h)

theorem foldlM_convertStep_map (b : Int) (f : Char → Char) (cs : List Char) (acc : Int)
    (h : ∀ c ∈ cs, isHexChar c = true ∧ digitOf (f c) = digitOf c) :
    (cs.map f).foldlM (convertStep b) acc = cs.foldlM (convertStep b) acc := by
  have h1 : ∀ c ∈ cs, ∃ d, digitOf c = some d := fun c hc =>
    digitOf_ne_none_of_hex c (h c hc).1
  have h2 : ∀ c ∈ cs.map f, ∃ d, digitOf c = some d := by
    intro c hc
    obtain ⟨a, ha, rfl⟩ := List.mem_map.mp hc
    rw [(h a ha).2]
    exact h1 a ha
  have e : (cs.map f).filterMap digitOf = cs.filterMap digitOf := by
    rw [List.filterMap_map]
    exact List.filterMap_congr fun a ha => (h a ha).2
  rw [foldlM_convertStep b _ acc h2, foldlM_convertStep b _ acc h1, e, List.length_map]

theorem foldlM_convertStep_find (b : Int) :
    ∀ (cs : List Char) (acc : Int),
      cs.foldlM (convertStep b) acc =
        match cs.find? (fun c => !isHexChar c) with
        | some c => .error (.invalidCharacter c)
        | none => .ok (acc * b ^ cs.length + positionalValue (cs.filterMap digitOf) b) := by
  intro cs
  induction cs with
  | nil => intro acc; simp [positionalValue, pure, Except.pure]
  | cons a t ih =>
    intro acc
    rw [List.foldlM_cons]
    cases ha : isHexChar a with
    | false =>
      have hd := digitOf_eq_none_of_not_hex a ha
      simp [convertStep, hd, ha, List.find?_cons]
      rfl
    | true =>
      obtain ⟨d, hd⟩ := digitOf_ne_none_of_hex a ha
      have hstep : convertStep b acc a = .ok (acc * b + (d : Int)) := by
        simp [convertStep, hd]
      rw [hstep]
      show t.foldlM (convertStep b) (acc * b + (d : Int)) = _
      rw [ih, List.find?_cons]
      simp only [ha, Bool.not_true]
      cases hf : t.find? (fun c => !isHexChar c) with
      | some c => rfl
      | none =>
        have hall : ∀ c ∈ t, ∃ d, digitOf c = some d := by
          intro c hc
          have := List.find?_eq_none.mp hf c hc
          exact digitOf_ne_none_of_hex c (by simpa using this)
        simp only [List.filterMap_cons, hd, positionalValue_cons,
          length_filterMap_digitOf t hall, List.length_cons]
        congr 1
        ring

theorem foldlM_convertStep_zeros (b : Int) :
    ∀ n : Nat, (List.replicate n '0').foldlM (convertStep b) 0 = .ok 0 := by
  intro n
  induction n with
  | zero => rfl
  | succ n ih =>
    have h0 : convertStep b 0 '0' = .ok 0 := by
      have hd : digitOf '0' = some 0 := by decide
      simp [convertStep, hd]
    rw [List.replicate_succ, List.foldlM_cons, h0]
    exact ih

/-- C15: for every base `b` and every string `s` over `0-9`, `a-f`, `A-F`,
`convertToBase10` returns the same result for `s`, for `s` converted to upper
case and for `s` converted to lower case. -/
theorem convertToBase10_case_insensitive (s : String) (b : Int)
    (hs : ∀ c ∈ s.toList, isHexChar c = true) :
    convertToBase10 s.toUpper b = convertToBase10 s b ∧
      convertToBase10 s.toLower b = convertToBase10 s b := by
  unfold convertToBase10 String.toUpper String.toLower
  rw [String.map_eq, String.map_eq]
  exact ⟨foldlM_convertStep_map b Char.toUpper s.toList 0 fun c hc =>
      ⟨hs c hc, (digitOf_case c (hs c hc)).1⟩,
    foldlM_convertStep_map b Char.toLower s.toList 0 fun c hc =>
      ⟨hs c hc, (digitOf_case c (hs c hc)).2⟩⟩

theorem convertToBase10_case_insensitive_witness :
    convertToBase10 "1aF".toUpper 16 = convertToBase10 "1aF" 16 ∧
      convertToBase10 "1aF".toLower 16 = convertToBase10 "1aF" 16 :=
  convertToBase10_case_insensitive "1aF" 16 (by decide)

/-- C16: for every base `b` and every string `s`, `convertToBase10 s b` raises
the invalid-character exception naming the leftmost character of `s` that is
not one of `0-9`, `a-f`, `A-F` when there is one, and returns the accumulated
value otherwise; so it fails if and only if `s` contains such a character. -/
theorem convertToBase10_fails_iff (s : String) (b : Int) :
    (convertToBase10 s b =
        match s.toList.find? (fun c => !isHexChar c) with
        | some c => .error (.invalidCharacter c)
        | none => .ok (positionalValue (digitValues s) b)) ∧
      ((∃ e, convertToBase10 s b = .error e) ↔ ∃ c ∈ s.toList, isHexChar c = false) := by
  have h : convertToBase10 s b =
      match s.toList.find? (fun c => !isHexChar c) with
      | some c => .error (.invalidCharacter c)
      | none => .ok (positionalValue (digitValues s) b) := by
    unfold convertToBase10 digitValues
    rw [foldlM_convertStep_find b s.toList 0]
    cases s.toList.find? (fun c => !isHexChar c) with
    | some c => rfl
    | none => simp
  refine ⟨h, ?_⟩
  rw [h]
  cases hf : s.toList.find? (fun c => !isHexChar c) with
  | some c =>
    have hc := List.find?_some hf
    have hm := List.mem_of_find?_eq_some hf
    simp only [Bool.not_eq_true'] at hc
    exact ⟨fun _ => ⟨c, hm, hc⟩, fun _ => ⟨_, rfl⟩⟩
  | none =>
    have hn := List.find?_eq_none.mp hf
    constructor
    · rintro ⟨e, he⟩
      cases he
    · rintro ⟨c, hc, hx⟩
      have := hn c hc
      simp [hx] at this

/-- C17: `convertToBase10("111", 2)` is `7`, `convertToBase10("a", 16)` is
`10`, and the reconstruction from the shares `(1, base 2, "111")` and
`(2, base 16, "a")` with `k = 2` returns `4`, the intercept of the line
`y = 3x + 4` through `(1,7)` and `(2,10)`. -/
theorem main_scenario_two_bases :
    convertToBase10 "111" 2 = .ok 7 ∧ convertToBase10 "a" 16 = .ok 10 ∧
      main [⟨1, 2, "111"⟩, ⟨2, 16, "a"⟩] 2 = .ok 4 ∧
      evalPoly [4, 3] 1 = 7 ∧ evalPoly [4, 3] 2 = 10 ∧ evalPoly [4, 3] 0 = 4 := by
  decide

/-- C20: for every base `b` and all strings `s` and `t` over `0-9`, `a-f`,
`A-F`, the value of `s ++ t` is the value of `s` times `b ^ len(t)` plus the
value of `t`; and prepending any number of `'0'` characters to `t` does not
change its decoded value. -/
theorem convertToBase10_append (s t : String) (b : Int)
    (hs : ∀ c ∈ s.toList, isHexChar c = true) (ht : ∀ c ∈ t.toList, isHexChar c = true) :
    (∃ vs vt : Int, convertToBase10 s b = .ok vs ∧ convertToBase10 t b = .ok vt ∧
        convertToBase10 (s ++ t) b = .ok (vs * b ^ t.length + vt)) ∧
      ∀ n : Nat, convertToBase10 (String.mk (List.replicate n '0') ++ t) b =
        convertToBase10 t b := by
  have hs' : ∀ c ∈ s.toList, ∃ d, digitOf c = some d := fun c hc =>
    digitOf_ne_none_of_hex c (hs c hc)
  have ht' : ∀ c ∈ t.toList, ∃ d, digitOf c = some d := fun c hc =>
    digitOf_ne_none_of_hex c (ht c hc)
  have happ : ∀ (u : String) (vu : Int), convertToBase10 u b = .ok vu →
      convertToBase10 (u ++ t) b =
        .ok (vu * b ^ t.length + positionalValue (digitValues t) b) := by
    intro u vu hu
    unfold convertToBase10 at hu ⊢
    rw [String.toList, String.data_append, List.foldlM_append]
    rw [String.toList] at hu
    rw [hu]
    show t.data.foldlM (convertStep b) vu = _
    exact foldlM_convertStep b t.toList vu ht'
  refine ⟨⟨_, _, convertToBase10_valid s b hs', convertToBase10_valid t b ht',
    happ s _ (convertToBase10_valid s b hs')⟩, fun n => ?_⟩
  rw [happ (String.mk (List.replicate n '0')) 0 (foldlM_convertStep_zeros b n),
    convertToBase10_valid t b ht']
  simp

theorem convertToBase10_append_witness :
    (∃ vs vt : Int, convertToBase10 "1F" 16 = .ok vs ∧ convertToBase10 "a0" 16 = .ok vt ∧
        convertToBase10 ("1F" ++ "a0") 16 = .ok (vs * 16 ^ "a0".length + vt)) ∧
      ∀ n : Nat, convertToBase10 (String.mk (List.replicate n '0') ++ "a0") 16 =
        convertToBase10 "a0" 16 :=
  convertToBase10_append "1F" "a0" 16 (by decide) (by decide)

/-! ## Evaluation at a node -/

theorem basisNum_node_eq_zero (points : List Point) (i j : Nat) (hj : j < points.length)
    (hij : i ≠ j) : basisNum points i points[j].x = 0 :=
  (basisNum_eq_zero_iff points i points[j].x).mpr
    ⟨j, fun h => hij h.symm, points[j], by simp [hj], rfl⟩

theorem basisTerm_node (points : List Point) (hnd : (points.map Point.x).Nodup)
    (j : Nat) (hj : j < points.length) (i : Fin points.length) :
    basisTerm points points[j].x (i.val, points.get i) =
      if i.val = j then points[j].y else 0 := by
  unfold basisTerm
  by_cases hij : i.val = j
  · have hD := denominators_ne_zero points hnd _ (mem_enum_get points i)
    have e : points.get i = points[j] := by simp [List.get_eq_getElem, hij]
    simp only [hij, if_true]
    simp only [e] at hD ⊢
    rw [hij] at hD
    exact Int.mul_tdiv_cancel _ hD
  · simp [hij, basisNum_node_eq_zero points i.val j hj hij]

theorem termExact_node (points : List Point) (j : Nat) (hj : j < points.length)
    (jp : Nat × Point) (hjp : jp ∈ points.enum) :
    termExact points points[j].x jp = true := by
  have hget := getElem?_of_mem_enum points jp hjp
  simp only [termExact, lagrangeBasis_eq points jp.1 jp.2 hget, beq_iff_eq]
  by_cases hij : jp.1 = j
  · have e : jp.2 = points[j] := by
      have := (List.getElem?_eq_some_iff.mp hget).2
      rw [← this]
      simp [hij]
    rw [e, hij]
    exact Int.mul_tmod_left _ _
  · rw [basisNum_node_eq_zero points jp.1 j hj hij]
    simp

/-- C18: for every list of points with pairwise distinct x-coordinates and
every valid index `j`, `lagrangeBasis points j points[j].x` has its numerator
equal to its denominator, `lagrangeBasis points i points[j].x` has numerator
`0` for every other valid index `i`, and so `interpolate points points[j].x`
returns `points[j].y` with every term division exact, whatever the
y-coordinates are. -/
theorem interpolate_at_node (points : List Point) (j : Nat)
    (hnd : (points.map Point.x).Nodup) (hj : j < points.length) :
    (∃ b, lagrangeBasis points j points[j].x = .ok b ∧ b.numerator = b.denominator) ∧
      (∀ i, i < points.length → i ≠ j →
        ∃ b, lagrangeBasis points i points[j].x = .ok b ∧ b.numerator = 0) ∧
      interpolate points points[j].x = .ok points[j].y ∧
      ∀ jp ∈ points.enum, termExact points points[j].x jp = true := by
  refine ⟨⟨_, lagrangeBasis_eq points j points[j] (by simp [hj]) _, rfl⟩, ?_, ?_,
    termExact_node points j hj⟩
  · intro i hi hij
    exact ⟨_, lagrangeBasis_eq points i points[i] (by simp [hi]) _,
      basisNum_node_eq_zero points i j hj hij⟩
  · rw [interpolate_ok points _ (denominators_ne_zero points hnd), sum_map_enum]
    congr 1
    rw [Finset.sum_congr rfl fun i _ => basisTerm_node points hnd j hj i]
    rw [Finset.sum_eq_single (⟨j, hj⟩ : Fin points.length)]
    · simp
    · intro i _ hne
      have : i.val ≠ j := fun h => hne (Fin.ext h)
      simp [this]
    · intro h
      exact absurd (Finset.mem_univ _) h

theorem interpolate_at_node_witness :
    (∃ b, lagrangeBasis [⟨1, 1⟩, ⟨3, -8⟩, ⟨5, 2⟩] 1
        ([⟨1, 1⟩, ⟨3, -8⟩, ⟨5, 2⟩] : List Point)[1].x = .ok b ∧
        b.numerator = b.denominator) ∧
      (∀ i, i < ([⟨1, 1⟩, ⟨3, -8⟩, ⟨5, 2⟩] : List Point).length → i ≠ 1 →
        ∃ b, lagrangeBasis [⟨1, 1⟩, ⟨3, -8⟩, ⟨5, 2⟩] i
          ([⟨1, 1⟩, ⟨3, -8⟩, ⟨5, 2⟩] : List Point)[1].x = .ok b ∧ b.numerator = 0) ∧
      interpolate [⟨1, 1⟩, ⟨3, -8⟩, ⟨5, 2⟩] ([⟨1, 1⟩, ⟨3, -8⟩, ⟨5, 2⟩] : List Point)[1].x =
        .ok ([⟨1, 1⟩, ⟨3, -8⟩, ⟨5, 2⟩] : List Point)[1].y ∧
      ∀ jp ∈ ([⟨1, 1⟩, ⟨3, -8⟩, ⟨5, 2⟩] : List Point).enum,
        termExact [⟨1, 1⟩, ⟨3, -8⟩, ⟨5, 2⟩]
          ([⟨1, 1⟩, ⟨3, -8⟩, ⟨5, 2⟩] : List Point)[1].x jp = true :=
  interpolate_at_node [⟨1, 1⟩, ⟨3, -8⟩, ⟨5, 2⟩] 1 (by decide) (by decide)

/-! ## The share indices `1, 2, ..., k` -/

/-- The numerator at `0` of the basis of the node `j + 1` among the nodes
`1, ..., n`: the product of `0 - (i + 1)` over `i < n` other than `j`. -/
def consNum (n j : Nat) : Int :=
  ∏ i in Finset.range n, if i = j then 1 else (0 - ((i : Int) + 1))

/-- The denominator of the basis of the node `j + 1` among the nodes
`1, ..., n`: the product of `(j + 1) - (i + 1)` over `i < n` other than `j`. -/
def consDen (n j : Nat) : Int :=
  ∏ i in Finset.range n, if i = j then 1 else (((j : Int) + 1) - ((i : Int) + 1))

theorem consNum_below (j : Nat) :
    ∀ n, n ≤ j → consNum n j * (j.choose n : Int) = (-1) ^ n * consDen n j := by
  intro n
  induction n with
  | zero => intro _; simp [consNum, consDen]
  | succ n ih =>
    intro hn
    have hne : n ≠ j := by omega
    have ih' := ih (by omega)
    have hch : ((j.choose (n + 1) : Int)) * ((n : Int) + 1) = (j.choose n : Int) * ((j : Int) - n) := by
      have := Nat.choose_succ_right_eq j n
      have hsub : ((j - n : Nat) : Int) = (j : Int) - n := by omega
      rw [← hsub]
      exact_mod_cast this
    have eN : consNum (n + 1) j = consNum n j * (0 - ((n : Int) + 1)) := by
      simp [consNum, Finset.prod_range_succ, hne]
    have eD : consDen (n + 1) j = consDen n j * (((j : Int) + 1) - ((n : Int) + 1)) := by
      simp [consDen, Finset.prod_range_succ, hne]
    rw [eN, eD]
    linear_combination (-((j : Int) - n)) * ih' + (-(consNum n j)) * hch

theorem consNum_above (j : Nat) :
    ∀ n, j + 1 ≤ n → consNum n j = (-1) ^ j * (n.choose (j + 1) : Int) * consDen n j := by
  intro n hn
  induction n with
  | zero => omega
  | succ n ih =>
    rcases Nat.eq_or_lt_of_le hn with h | h
    · have hnj : n = j := by omega
      subst hnj
      have h1 := consNum_below n n le_rfl
      have eN : consNum (n + 1) n = consNum n n := by
        simp [consNum, Finset.prod_range_succ]
      have eD : consDen (n + 1) n = consDen n n := by
        simp [consDen, Finset.prod_range_succ]
      rw [eN, eD]
      simpa using h1
    · have hne : n ≠ j := by omega
      have ih' := ih (by omega)
      have hch : ((n.choose (j + 1) : Int)) * ((n : Int) + 1) =
          ((n + 1).choose (j + 1) : Int) * ((n : Int) - j) := by
        have := Nat.choose_mul_succ_eq n (j + 1)
        have hsub : ((n + 1 - (j + 1) : Nat) : Int) = (n : Int) - j := by omega
        rw [← hsub]
        exact_mod_cast this
      have eN : consNum (n + 1) j = consNum n j * (0 - ((n : Int) + 1)) := by
        simp [consNum, Finset.prod_range_succ, hne]
      have eD : consDen (n + 1) j = consDen n j * (((j : Int) + 1) - ((n : Int) + 1)) := by
        simp [consDen, Finset.prod_range_succ, hne]
      rw [eN, eD]
      linear_combination (-((n : Int) + 1)) * ih' + (-((-1) ^ j * consDen n j)) * hch

/-- The product of `x - b` over the entries `b` of `xs` with one occurrence of
`a` removed. -/
def xProd (xs : List Int) (a x : Int) : Int :=
  ((xs.erase a).map fun b => x - b).prod

/-- The points with x-coordinates `1, ..., k` in this order and y-coordinate
`0`. -/
def nodes (k : Nat) : List Point :=
  (List.range k).map fun i : Nat => ⟨(i : Int) + 1, 0⟩

theorem eraseIdx_map_x :
    ∀ (l : List Point) (j : Nat),
      (l.eraseIdx j).map Point.x = (l.map Point.x).eraseIdx j := by
  intro l
  induction l with
  | nil => intro j; rfl
  | cons p t ih =>
    intro j
    cases j with
    | zero => rfl
    | succ j => simp [List.eraseIdx_cons_succ, ih j]

theorem basisNum_eq_xProd (points : List Point) (j : Nat) (pj : Point)
    (h : points[j]? = some pj) (x : Int) :
    basisNum points j x = xProd (points.map Point.x) pj.x x := by
  obtain ⟨hj, rfl⟩ := List.getElem?_eq_some_iff.mp h
  have hj' : j < (points.map Point.x).length := by simpa using hj
  have hperm := List.erase_getElem hj'
  have hget : (points.map Point.x)[j] = points[j].x := by simp
  rw [hget] at hperm
  unfold basisNum xProd
  have e : (points.eraseIdx j).map (fun p => x - p.x) =
      ((points.map Point.x).eraseIdx j).map fun b => x - b := by
    rw [← eraseIdx_map_x, List.map_map]
    rfl
  rw [e]
  exact (hperm.map _).prod_eq.symm

theorem xProd_perm {xs xs' : List Int} (h : xs.Perm xs') (a x : Int) :
    xProd xs a x = xProd xs' a x := by
  unfold xProd
  exact ((h.erase a).map _).prod_eq

theorem nodes_map_x (k : Nat) :
    (nodes k).map Point.x = (List.range k).map fun i : Nat => (i : Int) + 1 := by
  simp [nodes, List.map_map, Function.comp_def]

theorem nodes_getElem? (k m : Nat) (hm : m < k) :
    (nodes k)[m]? = some ⟨(m : Int) + 1, 0⟩ := by
  simp [nodes, hm]

theorem basisNum_nodes (k m : Nat) (x : Int) :
    basisNum (nodes k) m x =
      ∏ i in Finset.range k, if i = m then 1 else (x - ((i : Int) + 1)) := by
  have h := prod_ite_eq_eraseIdx (fun p => x - p.x) (nodes k) m
  unfold basisNum
  rw [← h]
  have hlen : (nodes k).length = k := by simp [nodes]
  have e : ∀ i : Fin (nodes k).length,
      (if i.val = m then 1 else x - ((nodes k).get i).x) =
        (fun n : Nat => if n = m then 1 else x - ((n : Int) + 1)) i.val := by
    intro i
    simp [nodes]
  rw [Finset.prod_congr rfl fun i _ => e i,
    Fin.prod_univ_eq_prod_range (fun n : Nat => if n = m then 1 else x - ((n : Int) + 1))
      (nodes k).length, hlen]

theorem basisNum_of_perm (points : List Point) (j : Nat) (hj : j < points.length)
    (hx : (points.map Point.x).Perm
      ((List.range points.length).map fun i : Nat => (i : Int) + 1)) :
    ∃ m, m < points.length ∧ points[j].x = (m : Int) + 1 ∧
      ∀ x, basisNum points j x =
        ∏ i in Finset.range points.length, if i = m then 1 else (x - ((i : Int) + 1)) := by
  have hmem : points[j].x ∈ (List.range points.length).map fun i : Nat => (i : Int) + 1 :=
    hx.subset (List.mem_map.mpr ⟨points[j], List.getElem_mem _, rfl⟩)
  obtain ⟨m, hm, hmx⟩ := List.mem_map.mp hmem
  have hm' : m < points.length := List.mem_range.mp hm
  refine ⟨m, hm', hmx.symm, fun x => ?_⟩
  rw [basisNum_eq_xProd points j points[j] (by simp [hj]) x,
    xProd_perm (hx.trans (List.Perm.of_eq (nodes_map_x points.length).symm)), ← hmx,
    ← basisNum_eq_xProd (nodes points.length) m ⟨(m : Int) + 1, 0⟩
      (nodes_getElem? points.length m hm') x,
    basisNum_nodes]

theorem termExact_of_dvd (points : List Point) (x : Int) (jp : Nat × Point)
    (hjp : jp ∈ points.enum)
    (h : basisNum points jp.1 jp.2.x ∣ jp.2.y * basisNum points jp.1 x) :
    termExact points x jp = true := by
  simp only [termExact, lagrangeBasis_eq points jp.1 jp.2 (getElem?_of_mem_enum points jp hjp),
    beq_iff_eq]
  exact Int.tmod_eq_zero_of_dvd h

theorem nodup_of_perm_range (points : List Point)
    (hx : (points.map Point.x).Perm
      ((List.range points.length).map fun i : Nat => (i : Int) + 1)) :
    (points.map Point.x).Nodup := by
  refine hx.nodup_iff.mpr ((List.nodup_range _).map ?_)
  intro a b hab
  simpa using hab

theorem basisNum_zero_of_perm (points : List Point) (j : Nat) (hj : j < points.length)
    (hx : (points.map Point.x).Perm
      ((List.range points.length).map fun i : Nat => (i : Int) + 1)) :
    ∃ m, m < points.length ∧ points[j].x = (m : Int) + 1 ∧
      basisNum points j 0 =
        (-1) ^ m * (points.length.choose (m + 1) : Int) * basisNum points j points[j].x := by
  obtain ⟨m, hm, hmx, hprod⟩ := basisNum_of_perm points j hj hx
  refine ⟨m, hm, hmx, ?_⟩
  have h0 : basisNum points j 0 = consNum points.length m := by
    rw [hprod 0]
    rfl
  have h1 : basisNum points j points[j].x = consDen points.length m := by
    rw [hprod points[j].x, hmx]
    rfl
  rw [h0, h1]
  exact consNum_above m points.length (by omega)

/-- C19: for every list of `k` points whose x-coordinates are `1, 2, ..., k`
in some order, the numerator at `0` of the basis of the point with
x-coordinate `m + 1` is its denominator times `(-1) ^ m * C(k, m + 1)`, so
every term division of `interpolate points 0` is exact whatever the
y-coordinates are; and when the y-coordinates are the values of a polynomial
with integer coefficients of degree at most `k - 1`, the result is its
constant term. -/
theorem interpolate_consecutive (points : List Point) (coeffs : List Int)
    (hx : (points.map Point.x).Perm
      ((List.range points.length).map fun i : Nat => (i : Int) + 1)) :
    (∀ j (hj : j < points.length), ∃ (m : Nat) (b : BasisFraction),
        points[j].x = (m : Int) + 1 ∧ lagrangeBasis points j 0 = .ok b ∧
        b.numerator = (-1) ^ m * (points.length.choose (m + 1) : Int) * b.denominator ∧
        b.denominator ∣ b.numerator) ∧
      (∀ jp ∈ points.enum, termExact points 0 jp = true) ∧
      (coeffs.length ≤ points.length → (∀ p ∈ points, p.y = evalPoly coeffs p.x) →
        interpolate points 0 = .ok (evalPoly coeffs 0) ∧
          evalPoly coeffs 0 = coeffs.headD 0) := by
  have hdvd : ∀ jp ∈ points.enum,
      basisNum points jp.1 jp.2.x ∣ jp.2.y * basisNum points jp.1 0 := by
    intro jp hjp
    have hget := getElem?_of_mem_enum points jp hjp
    obtain ⟨hj, hpj⟩ := List.getElem?_eq_some_iff.mp hget
    obtain ⟨m, _, _, hq⟩ := basisNum_zero_of_perm points jp.1 hj hx
    rw [hpj] at hq
    rw [hq]
    exact Dvd.dvd.mul_left (Dvd.intro_left _ rfl) _
  refine ⟨fun j hj => ?_, fun jp hjp => termExact_of_dvd points 0 jp hjp (hdvd jp hjp),
    fun hdeg hon => ⟨interpolate_eq_evalPoly coeffs points 0 hdeg
      (nodup_of_perm_range points hx) hon hdvd, evalPoly_zero coeffs⟩⟩
  obtain ⟨m, _, hmx, hq⟩ := basisNum_zero_of_perm points j hj hx
  exact ⟨m, _, hmx, lagrangeBasis_eq points j points[j] (by simp [hj]) 0, hq,
    hq ▸ Dvd.intro_left _ rfl⟩

theorem interpolate_consecutive_witness :
    (∀ j (hj : j < ([⟨2, 7⟩, ⟨1, 4⟩, ⟨3, 12⟩] : List Point).length),
        ∃ (m : Nat) (b : BasisFraction),
        ([⟨2, 7⟩, ⟨1, 4⟩, ⟨3, 12⟩] : List Point)[j].x = (m : Int) + 1 ∧
        lagrangeBasis [⟨2, 7⟩, ⟨1, 4⟩, ⟨3, 12⟩] j 0 = .ok b ∧
        b.numerator = (-1) ^ m *
          (([⟨2, 7⟩, ⟨1, 4⟩, ⟨3, 12⟩] : List Point).length.choose (m + 1) : Int) *
            b.denominator ∧
        b.denominator ∣ b.numerator) ∧
      (∀ jp ∈ ([⟨2, 7⟩, ⟨1, 4⟩, ⟨3, 12⟩] : List Point).enum,
        termExact [⟨2, 7⟩, ⟨1, 4⟩, ⟨3, 12⟩] 0 jp = true) ∧
      interpolate [⟨2, 7⟩, ⟨1, 4⟩, ⟨3, 12⟩] 0 = .ok (evalPoly [3, 0, 1] 0) ∧
      evalPoly [3, 0, 1] 0 = ([3, 0, 1] : List Int).headD 0 :=
  have h := interpolate_consecutive [⟨2, 7⟩, ⟨1, 4⟩, ⟨3, 12⟩] [3, 0, 1] (by decide)
  ⟨h.1, h.2.1, h.2.2 (by decide) (by decide)⟩

/-! ## The standard digit values -/

/-- The standard value of a digit character: `0` to `9` for `0-9` and `10` to
`15` for `a-f` and for `A-F`; no value for any other character. -/
def hexValue (c : Char) : Option Nat :=
  if '0'.toNat ≤ c.toNat ∧ c.toNat ≤ '9'.toNat then some (c.toNat - '0'.toNat)
  else if 'a'.toNat ≤ c.toNat ∧ c.toNat ≤ 'f'.toNat then some (c.toNat - 'a'.toNat + 10)
  else if 'A'.toNat ≤ c.toNat ∧ c.toNat ≤ 'F'.toNat then some (c.toNat - 'A'.toNat + 10)
  else none

/-- The standard digit values `d_0, d_1, ...` of the characters of `s`, most
significant first (`0` for a character that is not a digit). -/
def standardDigits (s : String) : List Nat :=
  s.toList.map fun c => (hexValue c).getD 0

theorem mem_hexChars_of_range (n : Nat)
    (h : (48 ≤ n ∧ n ≤ 57) ∨ (97 ≤ n ∧ n ≤ 102) ∨ (65 ≤ n ∧ n ≤ 70)) :
    Char.ofNat n ∈ hexChars := by
  rcases h with ⟨h1, h2⟩ | ⟨h1, h2⟩ | ⟨h1, h2⟩ <;> interval_cases n <;> decide

theorem hexValue_eq_none_of_not_hex (c : Char) (h : c ∉ hexChars) : hexValue c = none := by
  have hn : ¬ ((48 ≤ c.toNat ∧ c.toNat ≤ 57) ∨ (97 ≤ c.toNat ∧ c.toNat ≤ 102) ∨
      (65 ≤ c.toNat ∧ c.toNat ≤ 70)) := by
    intro hr
    have := mem_hexChars_of_range c.toNat hr
    rw [Char.ofNat_toNat] at this
    exact h this
  have e0 : '0'.toNat = 48 := rfl
  have e9 : '9'.toNat = 57 := rfl
  have ea : 'a'.toNat = 97 := rfl
  have ef : 'f'.toNat = 102 := rfl
  have eA : 'A'.toNat = 65 := rfl
  have eF : 'F'.toNat = 70 := rfl
  unfold hexValue
  rw [e0, e9, ea, ef, eA, eF]
  rw [if_neg (fun h1 => hn (Or.inl h1)), if_neg (fun h2 => hn (Or.inr (Or.inl h2))),
    if_neg (fun h3 => hn (Or.inr (Or.inr h3)))]

/-- The lookup of the code gives every character its standard digit value. -/
theorem digitOf_eq_hexValue (c : Char) : digitOf c = hexValue c := by
  by_cases h : c ∈ hexChars
  · have hall : ∀ a ∈ hexChars, digitOf a = hexValue a := by decide
    exact hall c h
  · rw [hexValue_eq_none_of_not_hex c h]
    exact digitOf_eq_none_of_not_hex c (by simpa [isHexChar] using h)

theorem digitValues_eq_standardDigits (s : String)
    (h : ∀ c ∈ s.toList, ∃ d, hexValue c = some d) :
    digitValues s = standardDigits s := by
  unfold digitValues standardDigits
  have e : ∀ c ∈ s.toList, digitOf c = (some ∘ fun c => (hexValue c).getD 0) c := by
    intro c hc
    obtain ⟨d, hd⟩ := h c hc
    simp [digitOf_eq_hexValue, hd]
  rw [List.filterMap_congr e, List.filterMap_eq_map]

/-- C2: for every base `b` in `[2,16]` and every string whose characters are
all digits of standard value below `b` (`0-9`, and `a-f` or `A-F` for `10` to
`15`), `convertToBase10` returns the positional value, the sum of
`d_i * b ^ (len - 1 - i)` over the standard digit values `d_i`, as an exact
integer; the empty string and `"0"` both give `0`. -/
theorem convertToBase10_positional (s : String) (b : Int) (_hlo : 2 ≤ b) (_hhi : b ≤ 16)
    (hdig : ∀ c ∈ s.toList, ∃ d, hexValue c = some d ∧ (d : Int) < b) :
    convertToBase10 s b = .ok (positionalValue (standardDigits s) b) ∧
      (standardDigits s).length = s.length ∧
      convertToBase10 "" b = .ok 0 ∧ convertToBase10 "0" b = .ok 0 := by
  have hv : ∀ c ∈ s.toList, ∃ d, hexValue c = some d := fun c hc =>
    let ⟨d, h, _⟩ := hdig c hc
    ⟨d, h⟩
  have hd : ∀ c ∈ s.toList, ∃ d, digitOf c = some d := fun c hc => by
    rw [digitOf_eq_hexValue]
    exact hv c hc
  refine ⟨?_, by simp [standardDigits], rfl, ?_⟩
  · rw [convertToBase10_valid s b hd, digitValues_eq_standardDigits s hv]
  · have h0 : digitOf '0' = some 0 := by decide
    simp [convertToBase10, convertStep, h0, pure, Except.pure]
    rfl

theorem convertToBase10_positional_witness :
    (convertToBase10 "1fA" 16 = .ok (positionalValue (standardDigits "1fA") 16) ∧
        (standardDigits "1fA").length = "1fA".length ∧
        convertToBase10 "" 16 = .ok 0 ∧ convertToBase10 "0" 16 = .ok 0) ∧
      standardDigits "1fA" = [1, 15, 10] ∧
      positionalValue [1, 15, 10] 16 = 1 * 16 ^ 2 + 15 * 16 ^ 1 + 10 * 16 ^ 0 ∧
      convertToBase10 "1fA" 16 = .ok 506 ∧
      hexChars.map hexValue =
        [some 0, some 1, some 2, some 3, some 4, some 5, some 6, some 7, some 8, some 9,
          some 10, some 11, some 12, some 13, some 14, some 15,
          some 10, some 11, some 12, some 13, some 14, some 15] :=
  ⟨convertToBase10_positional "1fA" 16 (by decide) (by decide) (by decide),
    by decide, by decide, by decide, by decide⟩

end Shamir
